import Mathlib

/-!
Shallow embedding of the 2D-to-VR180 conversion pipeline
(`app/services/video_conversion.py`) and proofs about it.

Modelling conventions.

* Machine floats of the source are modelled as exact rationals.  All the
  float expressions of the source that we embed are of the form
  `int(q)` / `round(q)` for a non-negative exact rational `q` whose value is
  far enough from the integer boundaries that double rounding cannot move the
  truncation (`width * 0.05`, `depth * max_shift`,
  `base_bitrate * (w*h)/(1920*1080)` at the resolutions of the lookup table),
  so the exact-rational embedding agrees with the float computation.
* Python's `int()` on a non-negative value is the floor; on a rational
  `a / b` (`a b : ℕ`) it is Nat division `a / b`.  Bridge lemmas
  (`natDiv_eq_floor`, `roundNat_eq_round`, …) relate the executable ℕ forms
  used in the definitions to `Int.floor` / `round` on `ℚ`.
* A non-finite float (NaN or inf, arising from division by zero) is
  modelled as `none : Option ℚ`.
* Images are total functions `ℕ → ℕ → ℕ` (row, column ↦ pixel value);
  out-of-bounds points simply keep their value, mirroring that the source
  arrays are only ever written inside bounds.
-/

namespace VR180

/-! ## Executable arithmetic helpers -/

/-- Decimal digits of `n`, least significant first, using `fuel` as a
structural bound (`n` itself is always enough fuel). -/
def digitsAux : ℕ → ℕ → List ℕ
  | 0, _ => []
  | fuel+1, n => if n = 0 then [] else (n % 10) :: digitsAux fuel (n / 10)

/-- Decimal representation of a natural number, as Python's `str`. -/
def natRepr (n : ℕ) : String :=
  ⟨(if n = 0 then [0] else digitsAux n n).reverse.map (fun d => Char.ofNat (48 + d))⟩

/-- Half-up rounding of the fraction `a / b`, computed in ℕ.
`roundNat_eq_round` shows it is `round ((a : ℚ) / b)`. -/
def roundNat (a b : ℕ) : ℕ := (2 * a + b) / (2 * b)

/-- Python's `int(d * m)` for a non-negative rational `d` and `m : ℕ`:
truncation toward zero, which on non-negative values is the floor.
`intFloorMul_eq_floor` shows it is `Int.toNat ⌊d * m⌋`. -/
def intFloorMul (d : ℚ) (m : ℕ) : ℕ := d.num.toNat * m / d.den

/-- Half-up rounding of `d * m` for a non-negative rational `d` and `m : ℕ`.
`roundMul_eq_round` shows it is `Int.toNat (round (d * m))`. -/
def roundMul (d : ℚ) (m : ℕ) : ℕ := (2 * d.num.toNat * m + d.den) / (2 * d.den)

/-! ## Bridge lemmas: executable ℕ arithmetic vs `⌊⌋` and `round` on ℚ -/

theorem natDiv_eq_floor (a b : ℕ) : (a / b : ℕ) = Int.toNat ⌊(a : ℚ) / (b : ℚ)⌋ := by
  rcases Nat.eq_zero_or_pos b with hb | hb
  · subst hb; simp
  · rw [Int.floor_toNat, Nat.floor_div_nat]
    simp

theorem roundNat_eq_round (a b : ℕ) (hb : 0 < b) :
    roundNat a b = Int.toNat (round ((a : ℚ) / (b : ℚ))) := by
  have hb0 : ((b : ℚ)) ≠ 0 := by positivity
  have h2b : ((2 * b : ℕ) : ℚ) ≠ 0 := by positivity
  have key : (a : ℚ) / (b : ℚ) + 1 / 2 = ((2 * a + b : ℕ) : ℚ) / ((2 * b : ℕ) : ℚ) := by
    push_cast
    field_simp
    ring
  rw [roundNat, round_eq, key, natDiv_eq_floor]

theorem mul_nat_eq_num_div_den (d : ℚ) (m : ℕ) (hd : 0 ≤ d) :
    d * (m : ℚ) = ((d.num.toNat * m : ℕ) : ℚ) / ((d.den : ℕ) : ℚ) := by
  have hnum : (d.num.toNat : ℚ) = (d.num : ℚ) := by
    have h := Int.toNat_of_nonneg (Rat.num_nonneg.mpr hd)
    exact_mod_cast congrArg (fun z : ℤ => (z : ℚ)) h
  have hden : ((d.den : ℕ) : ℚ) ≠ 0 := Nat.cast_ne_zero.mpr d.den_nz
  calc d * (m : ℚ) = ((d.num : ℚ) / (d.den : ℚ)) * m := by rw [Rat.num_div_den]
    _ = ((d.num.toNat * m : ℕ) : ℚ) / ((d.den : ℕ) : ℚ) := by
        push_cast [hnum]
        field_simp

theorem intFloorMul_eq_floor (d : ℚ) (m : ℕ) (hd : 0 ≤ d) :
    intFloorMul d m = Int.toNat ⌊d * (m : ℚ)⌋ := by
  rw [intFloorMul, natDiv_eq_floor, mul_nat_eq_num_div_den d m hd]

theorem roundMul_eq_round (d : ℚ) (m : ℕ) (hd : 0 ≤ d) :
    roundMul d m = Int.toNat (round (d * (m : ℚ))) := by
  have hden : (0 : ℚ) < ((2 * d.den : ℕ) : ℚ) := by
    have := d.pos
    positivity
  have key : d * (m : ℚ) + 1 / 2
      = ((2 * d.num.toNat * m + d.den : ℕ) : ℚ) / ((2 * d.den : ℕ) : ℚ) := by
    rw [mul_nat_eq_num_div_den d m hd]
    have hden' : ((d.den : ℕ) : ℚ) ≠ 0 := Nat.cast_ne_zero.mpr d.den_nz
    push_cast
    field_simp
    ring
  rw [roundMul, round_eq, key, natDiv_eq_floor]

/-! ## Conversion settings (`app/models/video_models.py`, `ConversionSettings`) -/

/-- Conversion settings; only the fields the pipeline core reads. -/
structure ConversionSettings where
  resolution : String
  quality : String
  frame_rate : ℕ
  stereo_mode : String
deriving DecidableEq, Repr

/-! ## `_get_output_resolution` (video_conversion.py lines 410-418) -/

/-- Embeds `_get_output_resolution`: dictionary lookup with default `(1920, 1080)`. -/
def getOutputResolution (resolution : String) : ℕ × ℕ :=
  if resolution = "720p" then (1280, 720)
  else if resolution = "1080p" then (1920, 1080)
  else if resolution = "1440p" then (2560, 1440)
  else if resolution = "4K" then (3840, 2160)
  else (1920, 1080)

/-! ## `_get_bitrate` (video_conversion.py lines 420-432) -/

/-- Embeds the `base_bitrates` dictionary lookup with default `2500`. -/
def baseBitrates (quality : String) : ℕ :=
  if quality = "low" then 1000
  else if quality = "medium" then 2500
  else if quality = "high" then 5000
  else if quality = "ultra" then 10000
  else 2500

/-- Embeds `_get_bitrate`: `f"{int(base_bitrate * resolution_factor)}k"` with
`resolution_factor = (width * height) / (1920 * 1080)`.  The truncated product
`int(base * (w*h) / N)` of these non-negative exact values is Nat division
`base * (w * h) / N`. -/
def getBitrate (quality : String) (width height : ℕ) : String :=
  natRepr (baseBitrates quality * (width * height) / (1920 * 1080)) ++ "k"

/-- Written from the spec's words for claim C5: the same bitrate formula with
the result *rounded* to the nearest integer (`roundNat`, which equals
`round` on ℚ by `roundNat_eq_round`) instead of truncated. -/
def specRoundBitrate (quality : String) (width height : ℕ) : String :=
  natRepr (roundNat (baseBitrates quality * (width * height)) (1920 * 1080)) ++ "k"

/-! ## Depth-map normalization (`_estimate_depth`, video_conversion.py line 271)

The depth map produced by the model is a non-empty matrix of floats, modelled
as `List (List ℚ)`.  The source computes
`(depth_map - depth_map.min()) / (depth_map.max() - depth_map.min())`
elementwise with numpy; numpy division by zero does not raise but produces a
non-finite value (`0/0 = NaN`), modelled as `none`. -/

/-- Minimum entry of a matrix (numpy `.min()`; `0` for an empty matrix, which
numpy would reject — depth maps are never empty). -/
def matMin (m : List (List ℚ)) : ℚ :=
  match m.flatten with
  | [] => 0
  | x :: xs => xs.foldl min x

/-- Maximum entry of a matrix (numpy `.max()`). -/
def matMax (m : List (List ℚ)) : ℚ :=
  match m.flatten with
  | [] => 0
  | x :: xs => xs.foldl max x

/-- Numpy elementwise division: division by zero yields a non-finite value,
modelled as `none`. -/
def npDiv (a b : ℚ) : Option ℚ := if b = 0 then none else some (a / b)

/-- Embeds the normalization step of `_estimate_depth`:
`(depth_map - depth_map.min()) / (depth_map.max() - depth_map.min())`. -/
def normalizeDepth (m : List (List ℚ)) : List (List (Option ℚ)) :=
  let lo := matMin m
  let hi := matMax m
  m.map (fun row => row.map (fun v => npDiv (v - lo) (hi - lo)))

/-! ## Stereo pair generation (`_generate_stereo_pair`, video_conversion.py lines 279-315)

The nested per-pixel loop is embedded as a left fold over the row-major list
of pixel coordinates, acting on a pair of views (left, right), each a total
function `ℕ → ℕ → ℕ`. -/

/-- Pointwise array update `g[y, x] = v`. -/
def updPx (g : ℕ → ℕ → ℕ) (y x v : ℕ) : ℕ → ℕ → ℕ :=
  fun y2 x2 => if y2 = y ∧ x2 = x then v else g y2 x2

/-- One iteration of the inner loop body, for a per-pixel shift function `sh`:
`right_view[y, x + shift] = frame[y, x]` when `x + shift < width`, and
`left_view[y, x - shift] = frame[y, x]` when `x - shift ≥ 0` (in ℕ:
`shift ≤ x`). -/
def stereoStep (frame : ℕ → ℕ → ℕ) (sh : ℕ → ℕ → ℕ) (width : ℕ)
    (v : (ℕ → ℕ → ℕ) × (ℕ → ℕ → ℕ)) (p : ℕ × ℕ) : (ℕ → ℕ → ℕ) × (ℕ → ℕ → ℕ) :=
  let y := p.1
  let x := p.2
  let shift := sh y x
  let right := if x + shift < width then updPx v.2 y (x + shift) (frame y x) else v.2
  let left := if shift ≤ x then updPx v.1 y (x - shift) (frame y x) else v.1
  (left, right)

/-- Row-major iteration order: ascending `y`, then ascending `x`. -/
def rowMajor (height width : ℕ) : List (ℕ × ℕ) :=
  (List.range height).flatMap (fun y => (List.range width).map (fun x => (y, x)))

/-- The double loop of `_generate_stereo_pair`, generic in the per-pixel shift
function; both views start as copies of the input frame. -/
def stereoFold (frame : ℕ → ℕ → ℕ) (sh : ℕ → ℕ → ℕ) (height width : ℕ) :
    (ℕ → ℕ → ℕ) × (ℕ → ℕ → ℕ) :=
  (rowMajor height width).foldl (stereoStep frame sh width) (frame, frame)

/-- Embeds `_generate_stereo_pair` up to the view-combination step:
`max_shift = int(width * 0.05)` (that is, `width * 5 / 100` in ℕ, see
`maxShiftOf_eq_floor`) and `shift = int(depth_map[y, x] * max_shift)`. -/
def maxShiftOf (width : ℕ) : ℕ := width * 5 / 100

def generateStereoPair (frame : ℕ → ℕ → ℕ) (depth : ℕ → ℕ → ℚ) (height width : ℕ) :
    (ℕ → ℕ → ℕ) × (ℕ → ℕ → ℕ) :=
  stereoFold frame (fun y x => intFloorMul (depth y x) (maxShiftOf width)) height width

/-- Written from the spec's words for claim C1: the same forward-splat loop
with `maxShift = round(width × 0.05)` and `shift = round(depth × maxShift)`
(half-up rounding; `roundNat_eq_round` / `roundMul_eq_round` identify these
with `round` on ℚ). -/
def specMaxShiftOf (width : ℕ) : ℕ := roundNat (width * 5) 100

def specStereoPair (frame : ℕ → ℕ → ℕ) (depth : ℕ → ℕ → ℚ) (height width : ℕ) :
    (ℕ → ℕ → ℕ) × (ℕ → ℕ → ℕ) :=
  stereoFold frame (fun y x => roundMul (depth y x) (specMaxShiftOf width)) height width

/-- Embeds the view-combination tail of `_generate_stereo_pair` plus the
above: `np.hstack([left_view, right_view])` for `"side-by-side"`, else
`np.vstack`. -/
def synthesize (frame : ℕ → ℕ → ℕ) (depth : ℕ → ℕ → ℚ) (height width : ℕ)
    (settings : ConversionSettings) : ℕ → ℕ → ℕ :=
  let v := generateStereoPair frame depth height width
  if settings.stereo_mode = "side-by-side" then
    fun y x => if x < width then v.1 y x else v.2 y (x - width)
  else
    fun y x => if y < height then v.1 y x else v.2 (y - height) x

/-! ### Last-write-wins characterization of the forward-splat loop -/

/-- The last element of `l` satisfying `pred` (the winning write of a
last-write-wins loop that processes `l` in order). -/
def lastWriter (pred : α → Bool) : List α → Option α
  | [] => none
  | a :: l =>
    match lastWriter pred l with
    | some b => some b
    | none => if pred a then some a else none

/-- Value of the right view at `(y, c)`, described declaratively: the frame
value of the last column `x` (in ascending order) whose in-bounds write
`right_view[y, x + shift] = frame[y, x]` lands on column `c`; if no write
lands there (or the row is never visited), the initial copy of the frame. -/
def declRight (frame : ℕ → ℕ → ℕ) (sh : ℕ → ℕ → ℕ) (height width : ℕ)
    (y c : ℕ) : ℕ :=
  if y < height then
    match lastWriter (fun x => decide (x + sh y x = c ∧ x + sh y x < width)) (List.range width) with
    | some x => frame y x
    | none => frame y c
  else frame y c

/-- Value of the left view at `(y, c)`, described declaratively via the writes
`left_view[y, x - shift] = frame[y, x]` performed when `shift ≤ x`. -/
def declLeft (frame : ℕ → ℕ → ℕ) (sh : ℕ → ℕ → ℕ) (height width : ℕ)
    (y c : ℕ) : ℕ :=
  if y < height then
    match lastWriter (fun x => decide (sh y x ≤ x ∧ x - sh y x = c)) (List.range width) with
    | some x => frame y x
    | none => frame y c
  else frame y c

/-! ### Helper lemmas about `lastWriter` and the fold -/

theorem lastWriter_append (pred : α → Bool) (L₁ L₂ : List α) :
    lastWriter pred (L₁ ++ L₂)
      = match lastWriter pred L₂ with
        | some b => some b
        | none => lastWriter pred L₁ := by
  induction L₁ with
  | nil =>
      simp only [List.nil_append]
      cases lastWriter pred L₂ <;> rfl
  | cons a L₁ ih =>
      simp only [List.cons_append, lastWriter, List.append_eq]
      rw [ih]
      cases lastWriter pred L₂ <;> cases lastWriter pred L₁ <;> rfl

theorem lastWriter_map (pred : β → Bool) (f : α → β) (L : List α) :
    lastWriter pred (L.map f) = Option.map f (lastWriter (fun a => pred (f a)) L) := by
  induction L with
  | nil => rfl
  | cons a L ih =>
      simp only [List.map_cons, lastWriter, ih]
      cases lastWriter (fun a => pred (f a)) L with
      | some b => rfl
      | none => by_cases h : pred (f a) <;> simp [h]

theorem lastWriter_eq_none (pred : α → Bool) (L : List α)
    (h : ∀ a ∈ L, pred a = false) : lastWriter pred L = none := by
  induction L with
  | nil => rfl
  | cons a L ih =>
      simp [lastWriter, ih (fun b hb => h b (List.mem_cons_of_mem a hb)),
        h a (List.mem_cons_self a L)]

theorem foldl_stereoStep_right (frame : ℕ → ℕ → ℕ) (sh : ℕ → ℕ → ℕ)
    (width y c : ℕ) (L : List (ℕ × ℕ)) :
    ∀ v : (ℕ → ℕ → ℕ) × (ℕ → ℕ → ℕ),
    (L.foldl (stereoStep frame sh width) v).2 y c
      = match lastWriter
          (fun p => decide (p.1 = y ∧ p.2 + sh p.1 p.2 = c ∧ p.2 + sh p.1 p.2 < width)) L with
        | some p => frame p.1 p.2
        | none => v.2 y c := by
  induction L with
  | nil => intro v; rfl
  | cons a L ih =>
      intro v
      rw [List.foldl_cons, ih]
      simp only [lastWriter]
      cases hL : lastWriter
          (fun p => decide (p.1 = y ∧ p.2 + sh p.1 p.2 = c ∧ p.2 + sh p.1 p.2 < width)) L with
      | some p => rfl
      | none =>
          rcases a with ⟨ay, ax⟩
          by_cases h1 : ax + sh ay ax < width
          · by_cases h2 : ay = y
            · by_cases h3 : ax + sh ay ax = c
              · subst h2; subst h3; simp [stereoStep, updPx, h1]
              · subst h2; simp [stereoStep, updPx, h1, h3, Ne.symm h3]
            · simp only [stereoStep, updPx, h1, if_true]
              simp [h2]
              intro hh
              exact absurd hh.symm h2
          · simp [stereoStep, updPx, h1]

theorem foldl_stereoStep_left (frame : ℕ → ℕ → ℕ) (sh : ℕ → ℕ → ℕ)
    (width y c : ℕ) (L : List (ℕ × ℕ)) :
    ∀ v : (ℕ → ℕ → ℕ) × (ℕ → ℕ → ℕ),
    (L.foldl (stereoStep frame sh width) v).1 y c
      = match lastWriter
          (fun p => decide (p.1 = y ∧ sh p.1 p.2 ≤ p.2 ∧ p.2 - sh p.1 p.2 = c)) L with
        | some p => frame p.1 p.2
        | none => v.1 y c := by
  induction L with
  | nil => intro v; rfl
  | cons a L ih =>
      intro v
      rw [List.foldl_cons, ih]
      simp only [lastWriter]
      cases hL : lastWriter
          (fun p => decide (p.1 = y ∧ sh p.1 p.2 ≤ p.2 ∧ p.2 - sh p.1 p.2 = c)) L with
      | some p => rfl
      | none =>
          rcases a with ⟨ay, ax⟩
          by_cases h1 : sh ay ax ≤ ax
          · by_cases h2 : ay = y
            · by_cases h3 : ax - sh ay ax = c
              · subst h2; subst h3; simp [stereoStep, updPx, h1]
              · subst h2; simp [stereoStep, updPx, h1, h3, Ne.symm h3]
            · simp only [stereoStep, updPx, h1, if_true]
              simp [h2]
              intro hh
              exact absurd hh.symm h2
          · simp [stereoStep, updPx, h1]

theorem rowMajor_succ (h w : ℕ) :
    rowMajor (h + 1) w = rowMajor h w ++ (List.range w).map (fun x => (h, x)) := by
  simp [rowMajor, List.range_succ]

theorem lastWriter_rowMajor (h w y : ℕ) (q : ℕ × ℕ → Bool) :
    lastWriter (fun p : ℕ × ℕ => decide (p.1 = y) && q p) (rowMajor h w)
      = if y < h then
          Option.map (fun x => (y, x)) (lastWriter (fun x => q (y, x)) (List.range w))
        else none := by
  induction h with
  | zero => simp [rowMajor, lastWriter]
  | succ h ih =>
      rw [rowMajor_succ, lastWriter_append, lastWriter_map]
      by_cases hy : y = h
      · subst hy
        have hq : (fun x => (decide ((y, x).1 = y)) && q (y, x)) = fun x => q (y, x) := by
          funext x; simp
        rw [hq]
        cases hx : lastWriter (fun x => q (y, x)) (List.range w) with
        | some x => simp [hx]
        | none => simp [hx, ih]
      · have hnone : lastWriter (fun x => (decide ((h, x).1 = y)) && q (h, x))
            (List.range w) = none := by
          apply lastWriter_eq_none
          intro x _
          simp [Ne.symm hy]
        rw [hnone]
        simp only [Option.map_none']
        rw [ih]
        have hiff : y < h + 1 ↔ y < h := by omega
        simp [hiff]

theorem stereoFold_right_eq (frame : ℕ → ℕ → ℕ) (sh : ℕ → ℕ → ℕ) (h w y c : ℕ) :
    (stereoFold frame sh h w).2 y c = declRight frame sh h w y c := by
  rw [stereoFold, foldl_stereoStep_right]
  have hpred : (fun p : ℕ × ℕ => decide (p.1 = y ∧ p.2 + sh p.1 p.2 = c ∧ p.2 + sh p.1 p.2 < w))
      = fun p : ℕ × ℕ => decide (p.1 = y)
          && (fun p : ℕ × ℕ => decide (p.2 + sh p.1 p.2 = c ∧ p.2 + sh p.1 p.2 < w)) p := by
    funext p
    simp [Bool.decide_and]
  rw [hpred, lastWriter_rowMajor]
  unfold declRight
  by_cases hy : y < h
  · simp only [hy, if_true]
    cases lastWriter (fun x => decide (x + sh y x = c ∧ x + sh y x < w)) (List.range w) <;> rfl
  · simp [hy]

theorem stereoFold_left_eq (frame : ℕ → ℕ → ℕ) (sh : ℕ → ℕ → ℕ) (h w y c : ℕ) :
    (stereoFold frame sh h w).1 y c = declLeft frame sh h w y c := by
  rw [stereoFold, foldl_stereoStep_left]
  have hpred : (fun p : ℕ × ℕ => decide (p.1 = y ∧ sh p.1 p.2 ≤ p.2 ∧ p.2 - sh p.1 p.2 = c))
      = fun p : ℕ × ℕ => decide (p.1 = y)
          && (fun p : ℕ × ℕ => decide (sh p.1 p.2 ≤ p.2 ∧ p.2 - sh p.1 p.2 = c)) p := by
    funext p
    simp [Bool.decide_and]
  rw [hpred, lastWriter_rowMajor]
  unfold declLeft
  by_cases hy : y < h
  · simp only [hy, if_true]
    cases lastWriter (fun x => decide (sh y x ≤ x ∧ x - sh y x = c)) (List.range w) <;> rfl
  · simp [hy]

/-! ## Progress reporting

`_extract_frames` reports `(frame_idx / frame_count) * 20` after each frame
(`frame_idx` runs `1 .. frame_count`); `_process_frames_for_vr180` reports
`20 + (idx / total_frames) * 60` for `idx` in `0 .. total_frames - 1`;
`_generate_vr180_video` reports `100` once at the end.  A complete run on a
video with `n` frames (the container's frame count matching the frames
actually decoded) therefore reports the following sequence. -/

def extractProgress (frameCount : ℕ) : List ℚ :=
  (List.range frameCount).map (fun i => (((i + 1 : ℕ) : ℚ) / (frameCount : ℚ)) * 20)

def processProgress (totalFrames : ℕ) : List ℚ :=
  (List.range totalFrames).map (fun i => 20 + (((i : ℕ) : ℚ) / (totalFrames : ℚ)) * 60)

def encodeProgress : List ℚ := [100]

def pipelineProgress (n : ℕ) : List ℚ :=
  extractProgress n ++ processProgress n ++ encodeProgress

/-! ## Frame file naming (`_extract_frames` line 191, `_process_frames_for_vr180`
line 217, `_generate_vr180_video` lines 330 and 340)

Extracted frames are named `f"frame_{frame_idx:06d}.jpg"`.  Filenames are
modelled as lists of character code points; `frameName i` is the code-point
sequence of that f-string (`:06d` pads the decimal representation with `'0'`,
code 48, to a minimum width of 6).  `lexLt` is lexicographic comparison of
code-point sequences, as Python's `sorted` uses on `str`. -/

/-- Decimal digits, least significant first; `[0]` for zero. -/
def decDigits (n : ℕ) : List ℕ := if n = 0 then [0] else digitsAux n n

/-- Code points of the decimal representation, most significant first. -/
def decCodes (n : ℕ) : List ℕ := (decDigits n).reverse.map (fun d => 48 + d)

/-- Left-pad with `'0'` (code 48) to a minimum width, as `%06d` does. -/
def zfill (widthMin : ℕ) (l : List ℕ) : List ℕ :=
  List.replicate (widthMin - l.length) 48 ++ l

/-- Code points of `f"frame_{i:06d}.jpg"`. -/
def frameName (i : ℕ) : List ℕ :=
  [102, 114, 97, 109, 101, 95] ++ zfill 6 (decCodes i) ++ [46, 106, 112, 103]

/-- Strict lexicographic order on code-point sequences (Python `str` `<`). -/
def lexLt : List ℕ → List ℕ → Bool
  | [], [] => false
  | [], _ :: _ => true
  | _ :: _, [] => false
  | a :: as, b :: bs => if a < b then true else if b < a then false else lexLt as bs

/-! ## Pipeline orchestration (`process_video`, video_conversion.py lines 93-168)

The external media/ML stack is abstracted as a record of stage outcomes: for
each stage invocation, either it completes (`Except.ok`) or it raises an
exception carrying a message (`Except.error e`, modelling Python's `str(e)`).
`process_video` itself is embedded as a total function from those outcomes to
the returned dictionary plus the final filesystem facts of interest. -/

/-- Technical metadata read by `_get_video_metadata` via `ffmpeg.probe`. -/
structure VideoMetadata where
  duration : ℚ
  width : ℕ
  height : ℕ
  fps : ℚ
  bitrate : ℕ
  codec : String
deriving DecidableEq, Repr

/-- Outcomes of the individual stage invocations performed by one
`process_video` call. -/
structure StageOutcomes where
  extractOutcome : Except String Unit
  processOutcome : Except String Unit
  encodeOutcome : Except String Unit
  thumbOutcome : Except String Unit
  probeOutcome : Except String VideoMetadata

/-- Embeds `_get_video_metadata`: its own `try/except` catches any probe
error and returns the empty dict (modelled `none`) instead of raising. -/
def getVideoMetadata (probe : Except String VideoMetadata) : Option VideoMetadata :=
  match probe with
  | .ok m => some m
  | .error _ => none

/-- The ffmpeg invocation `_generate_thumbnail` issues: read `source`, seek to
`seekPercent` percent of its duration (`ss='10%'`), write `frameCount`
frames (`vframes=1`) to `dest`. -/
structure ThumbRequest where
  source : String
  seekPercent : ℕ
  frameCount : ℕ
  dest : String
deriving DecidableEq, Repr

/-- The name of the scoped temporary workspace created by
`tempfile.TemporaryDirectory()`. -/
def tempDirName : String := "TMPDIR"

def thumbnailRequestOf (videoPath : String) : ThumbRequest :=
  { source := videoPath, seekPercent := 10, frameCount := 1,
    dest := tempDirName ++ "/thumbnail.jpg" }

/-- Filesystem facts at the moment `process_video` returns. -/
structure PipelineWorld where
  tempCreated : Bool
  tempDirExists : Bool
  outputExists : Bool
  thumbnailInTemp : Bool
  thumbRequest : Option ThumbRequest
deriving DecidableEq, Repr

/-- The returned dictionary: `{'success': True, 'output_path': …,
'thumbnail_path': …, 'metadata': …}` on success (metadata `none` models the
empty dict `{}`), `{'success': False, 'error': …}` on failure. -/
inductive PVResult
  | ok (output_path thumbnail_path : String) (metadata : Option VideoMetadata)
  | failure (error : String)
deriving DecidableEq, Repr

/-- Removal of the workspace and everything inside it, performed by the
`with tempfile.TemporaryDirectory()` block on every exit path. -/
def cleanupTemp (w : PipelineWorld) : PipelineWorld :=
  { w with tempDirExists := false, thumbnailInTemp := false }

/-- Embeds `process_video`.  The dependency guard returns before any
workspace is created; afterwards the stages run in order inside the
`with tempfile.TemporaryDirectory()` block under one `try/except Exception`
that converts any raised error into a failure dictionary.  Encoding writes
the output file at the destination (outside the workspace) when it
completes; the thumbnail is written inside the workspace. -/
def processVideo (deps : Bool) (o : StageOutcomes) (input_path output_path : String) :
    PVResult × PipelineWorld :=
  if deps = false then
    (.failure "Video processing dependencies not available",
     { tempCreated := false, tempDirExists := false, outputExists := false,
       thumbnailInTemp := false, thumbRequest := none })
  else
    let w0 : PipelineWorld :=
      { tempCreated := true, tempDirExists := true, outputExists := false,
        thumbnailInTemp := false, thumbRequest := none }
    let rw : PVResult × PipelineWorld :=
      match o.extractOutcome with
      | .error e => (.failure e, w0)
      | .ok _ =>
        match o.processOutcome with
        | .error e => (.failure e, w0)
        | .ok _ =>
          match o.encodeOutcome with
          | .error e => (.failure e, w0)
          | .ok _ =>
            let w1 := { w0 with outputExists := true }
            let req := thumbnailRequestOf input_path
            match o.thumbOutcome with
            | .error e => (.failure e, { w1 with thumbRequest := some req })
            | .ok _ =>
              (.ok output_path req.dest (getVideoMetadata o.probeOutcome),
               { w1 with thumbnailInTemp := true, thumbRequest := some req })
    (rw.1, cleanupTemp rw.2)

/-! # Claim theorems -/

/-- C5, counterexample: the claim's bitrate formula rounds
(`baseBitrate * (w*h)/(1920*1080)` rounded to an integer), but on
quality `"low"`, resolution `"1440p"` (table dimensions 2560×1440) the
rounded formula yields `"1778k"` while `_get_bitrate` yields `"1777k"`
(`1000 * 16/9 = 1777.77…` is truncated by `int()`). -/
theorem C5_counterexample :
    getOutputResolution "1440p" = (2560, 1440)
    ∧ getBitrate "low" 2560 1440 = "1777k"
    ∧ specRoundBitrate "low" 2560 1440 = "1778k"
    ∧ getBitrate "low" 2560 1440 ≠ specRoundBitrate "low" 2560 1440 := by decide

/-- C5, amended: dimension and base-bitrate lookup tables with their
fallbacks are as claimed, the effective bitrate is
`baseBitrate * (outputWidth*outputHeight)/(1920*1080)` *truncated* (not
rounded) to an integer with a `"k"` suffix, and the two examples of the
claim hold: high/1080p ⇒ `"5000k"`, low/4K ⇒ `"4000k"`. -/
theorem C5_bitrate_amended :
    (getOutputResolution "720p" = (1280, 720)
      ∧ getOutputResolution "1080p" = (1920, 1080)
      ∧ getOutputResolution "1440p" = (2560, 1440)
      ∧ getOutputResolution "4K" = (3840, 2160))
    ∧ (∀ r : String, r ≠ "720p" → r ≠ "1080p" → r ≠ "1440p" → r ≠ "4K" →
        getOutputResolution r = (1920, 1080))
    ∧ (baseBitrates "low" = 1000 ∧ baseBitrates "medium" = 2500
      ∧ baseBitrates "high" = 5000 ∧ baseBitrates "ultra" = 10000)
    ∧ (∀ q : String, q ≠ "low" → q ≠ "medium" → q ≠ "high" → q ≠ "ultra" →
        baseBitrates q = 2500)
    ∧ (∀ (q : String) (w h : ℕ),
        getBitrate q w h
          = natRepr (Int.toNat ⌊(baseBitrates q : ℚ)
              * (((w * h : ℕ) : ℚ) / ((1920 * 1080 : ℕ) : ℚ))⌋) ++ "k")
    ∧ getBitrate "high" 1920 1080 = "5000k"
    ∧ getBitrate "low" 3840 2160 = "4000k" := by
  refine ⟨by decide, ?_, by decide, ?_, ?_, by decide, by decide⟩
  · intro r h1 h2 h3 h4
    simp [getOutputResolution, h1, h2, h3, h4]
  · intro q h1 h2 h3 h4
    simp [baseBitrates, h1, h2, h3, h4]
  · intro q w h
    rw [getBitrate]
    have harg : ((baseBitrates q * (w * h) : ℕ) : ℚ) / ((1920 * 1080 : ℕ) : ℚ)
        = (baseBitrates q : ℚ) * (((w * h : ℕ) : ℚ) / ((1920 * 1080 : ℕ) : ℚ)) := by
      push_cast
      ring
    rw [natDiv_eq_floor, harg]

/-- C5, witness for the amended theorem: the fallbacks at unrecognized
strings. -/
theorem C5_bitrate_amended_witness :
    getOutputResolution "480p" = (1920, 1080) ∧ baseBitrates "best" = 2500 :=
  ⟨C5_bitrate_amended.2.1 "480p" (by decide) (by decide) (by decide) (by decide),
   C5_bitrate_amended.2.2.2.1 "best" (by decide) (by decide) (by decide) (by decide)⟩

/-- C2, code at the failing input: on the spatially constant 2×2 depth map
with every entry `1/2` (`max == min`), the normalization
`(d - d.min()) / (d.max() - d.min())` divides by zero in every entry,
producing non-finite values (`none`, numpy NaN) rather than the all-zero
map the claim requires. -/
theorem C2_constant_map_divides_by_zero :
    normalizeDepth [[1/2, 1/2], [1/2, 1/2]] = [[none, none], [none, none]]
    ∧ normalizeDepth [[1/2, 1/2], [1/2, 1/2]]
        ≠ [[some 0, some 0], [some 0, some 0]] := by
  constructor
  · simp [normalizeDepth, matMin, matMax, npDiv]
  · simp [normalizeDepth, matMin, matMax, npDiv]

/-- C8: the stereo synthesizer (depth-guided splat plus view combination)
is a pure function of the frame, the depth map, the dimensions and the
settings — runs on equal inputs yield equal (hence byte-identical)
outputs. -/
theorem C8_synthesize_deterministic (f₁ f₂ : ℕ → ℕ → ℕ) (d₁ d₂ : ℕ → ℕ → ℚ)
    (h₁ h₂ w₁ w₂ : ℕ) (s₁ s₂ : ConversionSettings)
    (hf : f₁ = f₂) (hd : d₁ = d₂) (hh : h₁ = h₂) (hw : w₁ = w₂) (hs : s₁ = s₂) :
    synthesize f₁ d₁ h₁ w₁ s₁ = synthesize f₂ d₂ h₂ w₂ s₂ := by
  subst hf
  subst hd
  subst hh
  subst hw
  subst hs
  rfl

/-- C8, witness: two runs on one concrete input. -/
theorem C8_synthesize_deterministic_witness :
    synthesize (fun _ x => x) (fun _ _ => 1) 2 3 ⟨"1080p", "high", 30, "side-by-side"⟩
      = synthesize (fun _ x => x) (fun _ _ => 1) 2 3 ⟨"1080p", "high", 30, "side-by-side"⟩ :=
  C8_synthesize_deterministic _ _ _ _ _ _ _ _ _ _ rfl rfl rfl rfl rfl

/-- C3, counterexample: with every media stage succeeding but the metadata
probe raising, `process_video` returns a *success* dictionary (with empty
metadata), because `_get_video_metadata` swallows its own exception — so a
stage error does not always yield a failure result as the claim states. -/
theorem C3_counterexample :
    (processVideo true
      { extractOutcome := .ok (), processOutcome := .ok (), encodeOutcome := .ok (),
        thumbOutcome := .ok (), probeOutcome := .error "ffprobe failed" }
      "in.mp4" "out.mp4").1
      = PVResult.ok "out.mp4" (tempDirName ++ "/thumbnail.jpg") none := by decide

/-- C3, amended: any error raised by frame extraction, frame processing or
encoding aborts the run with a failure result carrying the error message and
no output file at the destination; a thumbnail-stage error also aborts with
a failure result, but the already-encoded output remains at the
destination; a metadata-probe error does not abort — the run reports
success with empty metadata.  The temporary workspace is removed on every
exit path. -/
theorem C3_pipeline_errors_amended (o : StageOutcomes) (input output : String) :
    (processVideo true o input output).2.tempDirExists = false
    ∧ (processVideo true o input output).2.thumbnailInTemp = false
    ∧ (∀ e, o.extractOutcome = .error e →
        (processVideo true o input output).1 = .failure e
          ∧ (processVideo true o input output).2.outputExists = false)
    ∧ (∀ e, o.extractOutcome = .ok () → o.processOutcome = .error e →
        (processVideo true o input output).1 = .failure e
          ∧ (processVideo true o input output).2.outputExists = false)
    ∧ (∀ e, o.extractOutcome = .ok () → o.processOutcome = .ok () →
        o.encodeOutcome = .error e →
        (processVideo true o input output).1 = .failure e
          ∧ (processVideo true o input output).2.outputExists = false)
    ∧ (∀ e, o.extractOutcome = .ok () → o.processOutcome = .ok () →
        o.encodeOutcome = .ok () → o.thumbOutcome = .error e →
        (processVideo true o input output).1 = .failure e
          ∧ (processVideo true o input output).2.outputExists = true)
    ∧ (∀ e, o.extractOutcome = .ok () → o.processOutcome = .ok () →
        o.encodeOutcome = .ok () → o.thumbOutcome = .ok () →
        o.probeOutcome = .error e →
        (processVideo true o input output).1
          = .ok output (tempDirName ++ "/thumbnail.jpg") none) := by
  rcases o with ⟨oe, op, oen, ot, opr⟩
  cases oe <;> cases op <;> cases oen <;> cases ot <;> cases opr <;>
    simp [processVideo, getVideoMetadata, cleanupTemp, thumbnailRequestOf]

/-- C3, witness for the amended theorem: an extraction error aborts with
that message and leaves no output. -/
theorem C3_pipeline_errors_amended_witness :
    (processVideo true ⟨.error "boom", .ok (), .ok (), .ok (), .error "p"⟩
        "a.mp4" "b.mp4").1 = PVResult.failure "boom"
    ∧ (processVideo true ⟨.error "boom", .ok (), .ok (), .ok (), .error "p"⟩
        "a.mp4" "b.mp4").2.outputExists = false :=
  (C3_pipeline_errors_amended ⟨.error "boom", .ok (), .ok (), .ok (), .error "p"⟩
    "a.mp4" "b.mp4").2.2.1 "boom" rfl

/-- C4, code at the failing input (any fully successful run): the result is
a success whose thumbnail request correctly reads the *original* source at
10% of its duration for exactly one frame, but the returned thumbnail path
points inside the temporary workspace, which is removed before
`process_video` returns — no file exists at that path at return time. -/
theorem C4_thumbnail_deleted_with_workspace :
    (processVideo true
      { extractOutcome := .ok (), processOutcome := .ok (), encodeOutcome := .ok (),
        thumbOutcome := .ok (),
        probeOutcome := .ok ⟨120, 1920, 1080, 30, 5000000, "h264"⟩ }
      "in.mp4" "out.mp4").1
        = PVResult.ok "out.mp4" (tempDirName ++ "/thumbnail.jpg")
            (some ⟨120, 1920, 1080, 30, 5000000, "h264"⟩)
    ∧ (processVideo true
      { extractOutcome := .ok (), processOutcome := .ok (), encodeOutcome := .ok (),
        thumbOutcome := .ok (),
        probeOutcome := .ok ⟨120, 1920, 1080, 30, 5000000, "h264"⟩ }
      "in.mp4" "out.mp4").2.thumbRequest
        = some { source := "in.mp4", seekPercent := 10, frameCount := 1,
                 dest := tempDirName ++ "/thumbnail.jpg" }
    ∧ (processVideo true
      { extractOutcome := .ok (), processOutcome := .ok (), encodeOutcome := .ok (),
        thumbOutcome := .ok (),
        probeOutcome := .ok ⟨120, 1920, 1080, 30, 5000000, "h264"⟩ }
      "in.mp4" "out.mp4").2.thumbnailInTemp = false
    ∧ (processVideo true
      { extractOutcome := .ok (), processOutcome := .ok (), encodeOutcome := .ok (),
        thumbOutcome := .ok (),
        probeOutcome := .ok ⟨120, 1920, 1080, 30, 5000000, "h264"⟩ }
      "in.mp4" "out.mp4").2.tempDirExists = false := by
  refine ⟨rfl, rfl, rfl, rfl⟩

/-- C10: `process_video` is total at its interface — it always returns a
result dictionary, either a success or a failure carrying an error string;
and when the media/ML dependencies are unavailable it fails immediately,
before any workspace is created, any output written, or any external
command issued. -/
theorem C10_process_video_total (o : StageOutcomes) (input output : String) :
    ((processVideo false o input output).1
        = PVResult.failure "Video processing dependencies not available"
      ∧ (processVideo false o input output).2.tempCreated = false
      ∧ (processVideo false o input output).2.outputExists = false
      ∧ (processVideo false o input output).2.thumbRequest = none)
    ∧ (∀ deps : Bool,
        (∃ op tp md, (processVideo deps o input output).1 = PVResult.ok op tp md)
          ∨ (∃ e, (processVideo deps o input output).1 = PVResult.failure e)) := by
  constructor
  · exact ⟨rfl, rfl, rfl, rfl⟩
  · intro deps
    cases deps
    · right
      exact ⟨_, rfl⟩
    · rcases o with ⟨oe, op', oen, ot, opr⟩
      cases oe <;> cases op' <;> cases oen <;> cases ot <;>
        first
          | (left; exact ⟨_, _, _, rfl⟩)
          | (right; exact ⟨_, rfl⟩)

/-! ### Bridge and bound lemmas for the stereo claims -/

theorem maxShiftOf_eq_floor (w : ℕ) : maxShiftOf w = Int.toNat ⌊(w : ℚ) * (5 / 100)⌋ := by
  have harg : (w : ℚ) * (5 / 100) = ((w * 5 : ℕ) : ℚ) / ((100 : ℕ) : ℚ) := by
    push_cast
    ring
  rw [maxShiftOf, natDiv_eq_floor, harg]

theorem specMaxShiftOf_eq_round (w : ℕ) :
    specMaxShiftOf w = Int.toNat (round ((w : ℚ) * (5 / 100))) := by
  have harg : ((w * 5 : ℕ) : ℚ) / ((100 : ℕ) : ℚ) = (w : ℚ) * (5 / 100) := by
    push_cast
    ring
  rw [specMaxShiftOf, roundNat_eq_round _ _ (by norm_num), harg]

theorem intFloorMul_le (d : ℚ) (m : ℕ) (hd1 : d ≤ 1) : intFloorMul d m ≤ m := by
  have hnumden : d.num.toNat ≤ d.den := by
    have hq : (d.num : ℚ) ≤ (d.den : ℚ) := by
      have hden : (0 : ℚ) < (d.den : ℚ) := by
        exact_mod_cast d.pos
      have hh : (d.num : ℚ) = d * (d.den : ℚ) := by
        have h0 := Rat.num_div_den d
        rw [div_eq_iff (ne_of_gt hden)] at h0
        exact h0
      rw [hh]
      calc d * (d.den : ℚ) ≤ 1 * (d.den : ℚ) := by
            exact mul_le_mul_of_nonneg_right hd1 (le_of_lt hden)
        _ = (d.den : ℚ) := one_mul _
    have hz : d.num ≤ (d.den : ℤ) := by exact_mod_cast hq
    omega
  calc intFloorMul d m = d.num.toNat * m / d.den := rfl
    _ ≤ d.den * m / d.den := Nat.div_le_div_right (Nat.mul_le_mul_right m hnumden)
    _ = m := by
        rw [Nat.mul_div_cancel_left m d.pos]

theorem maxShiftOf_le_round (w : ℕ) :
    maxShiftOf w ≤ Int.toNat (round ((w : ℚ) * (5 / 100))) := by
  rw [maxShiftOf_eq_floor]
  have hfr : ⌊(w : ℚ) * (5 / 100)⌋ ≤ round ((w : ℚ) * (5 / 100)) := by
    rw [round_eq]
    exact Int.floor_le_floor (by linarith)
  omega

theorem lastWriter_pred (pred : α → Bool) (L : List α) :
    ∀ a, lastWriter pred L = some a → pred a = true := by
  induction L with
  | nil => intro a h; cases h
  | cons x L ih =>
      intro a h
      simp only [lastWriter] at h
      cases hL : lastWriter pred L with
      | some b =>
          rw [hL] at h
          cases h
          exact ih _ hL
      | none =>
          rw [hL] at h
          by_cases hx : pred x
          · simp [hx] at h
            subst h
            exact hx
          · simp [hx] at h

/-- C1, counterexample: a 1×12 frame whose pixel value equals its column
index, constant depth `1` (within `[0,1]`).  By the claim,
`maxShift = round(12 × 0.05) = 1` and every pixel shifts by one column, so
the right view holds `0` at column 1; the code computes
`max_shift = int(12 * 0.05) = 0`, so every shift is `0` and the right view
keeps `1` at column 1 — the claimed algorithm disagrees with the code. -/
theorem C1_counterexample :
    (specStereoPair (fun _ x => x) (fun _ _ => (1 : ℚ)) 1 12).2 0 1 = 0
    ∧ (generateStereoPair (fun _ x => x) (fun _ _ => (1 : ℚ)) 1 12).2 0 1 = 1
    ∧ (specStereoPair (fun _ x => x) (fun _ _ => (1 : ℚ)) 1 12).2 0 1
        ≠ (generateStereoPair (fun _ x => x) (fun _ _ => (1 : ℚ)) 1 12).2 0 1 := by
  decide

/-- C1, amended: with truncation in place of rounding
(`maxShift = int(width × 0.05)`, `shift = int(depth[y,x] × maxShift)`, the
claim's `round` being the only change forced by the counterexample), the
loop of `_generate_stereo_pair` — row-major ascending `y` then `x`, both
views initialized as copies of the frame, `frame[y,x]` written to the right
view at column `x+shift` and to the left view at column `x−shift` when in
bounds, last write winning — computes exactly the declarative
last-write-wins semantics `declLeft`/`declRight`. -/
theorem C1_stereo_splat_amended (frame : ℕ → ℕ → ℕ) (depth : ℕ → ℕ → ℚ)
    (height width : ℕ) (hd : ∀ y x, 0 ≤ depth y x ∧ depth y x ≤ 1) :
    ∀ y c,
      (generateStereoPair frame depth height width).1 y c
        = declLeft frame (fun y x => Int.toNat ⌊depth y x * ((maxShiftOf width : ℕ) : ℚ)⌋)
            height width y c
      ∧ (generateStereoPair frame depth height width).2 y c
        = declRight frame (fun y x => Int.toNat ⌊depth y x * ((maxShiftOf width : ℕ) : ℚ)⌋)
            height width y c
      ∧ maxShiftOf width = Int.toNat ⌊(width : ℚ) * (5 / 100)⌋ := by
  intro y c
  have hsh : (fun y x => intFloorMul (depth y x) (maxShiftOf width))
      = fun y x => Int.toNat ⌊depth y x * ((maxShiftOf width : ℕ) : ℚ)⌋ := by
    funext y x
    exact intFloorMul_eq_floor _ _ (hd y x).1
  refine ⟨?_, ?_, maxShiftOf_eq_floor width⟩
  · rw [generateStereoPair, hsh]
    exact stereoFold_left_eq frame _ height width y c
  · rw [generateStereoPair, hsh]
    exact stereoFold_right_eq frame _ height width y c

/-- C1, witness for the amended theorem, at the counterexample's input. -/
theorem C1_stereo_splat_amended_witness :
    (∀ y x : ℕ, 0 ≤ (fun _ _ => (1 : ℚ)) y x ∧ (fun _ _ => (1 : ℚ)) y x ≤ 1)
    ∧ (generateStereoPair (fun _ x => x) (fun _ _ => (1 : ℚ)) 1 12).2 0 1
        = declRight (fun _ x => x)
            (fun y x => Int.toNat ⌊(fun _ _ => (1 : ℚ)) y x * ((maxShiftOf 12 : ℕ) : ℚ)⌋)
            1 12 0 1 :=
  have hd : ∀ y x : ℕ, 0 ≤ (fun _ _ => (1 : ℚ)) y x ∧ (fun _ _ => (1 : ℚ)) y x ≤ 1 :=
    fun _ _ => ⟨zero_le_one, le_refl 1⟩
  ⟨hd, (C1_stereo_splat_amended (fun _ x => x) (fun _ _ => (1 : ℚ)) 1 12 hd 0 1).2.1⟩

/-- C7: for depth values in `[0,1]`, every pixel of either view of
`_generate_stereo_pair` is a copy of a source pixel of the same row at most
`round(width × 0.05)` columns away (the code's truncated `max_shift` is at
most the claim's rounded bound). -/
theorem C7_disparity_bound (frame : ℕ → ℕ → ℕ) (depth : ℕ → ℕ → ℚ)
    (height width : ℕ) (hd : ∀ y x, 0 ≤ depth y x ∧ depth y x ≤ 1) (y c : ℕ) :
    (∃ x, (generateStereoPair frame depth height width).2 y c = frame y x
        ∧ x ≤ c ∧ c - x ≤ Int.toNat (round ((width : ℚ) * (5 / 100))))
    ∧ (∃ x, (generateStereoPair frame depth height width).1 y c = frame y x
        ∧ c ≤ x ∧ x - c ≤ Int.toNat (round ((width : ℚ) * (5 / 100)))) := by
  have hbound : ∀ y x, intFloorMul (depth y x) (maxShiftOf width)
      ≤ Int.toNat (round ((width : ℚ) * (5 / 100))) := by
    intro y x
    exact le_trans (intFloorMul_le _ _ (hd y x).2) (maxShiftOf_le_round width)
  constructor
  · rw [generateStereoPair, stereoFold_right_eq, declRight]
    by_cases hy : y < height
    · simp only [hy, if_true]
      cases hlw : lastWriter
          (fun x => decide (x + intFloorMul (depth y x) (maxShiftOf width) = c
            ∧ x + intFloorMul (depth y x) (maxShiftOf width) < width))
          (List.range width) with
      | some x =>
          have hp := lastWriter_pred _ _ _ hlw
          have hp' : x + intFloorMul (depth y x) (maxShiftOf width) = c
              ∧ x + intFloorMul (depth y x) (maxShiftOf width) < width :=
            of_decide_eq_true hp
          refine ⟨x, rfl, ?_, ?_⟩
          · omega
          · have := hbound y x
            omega
      | none => exact ⟨c, rfl, le_refl c, by omega⟩
    · simp only [hy, if_false]
      exact ⟨c, rfl, le_refl c, by omega⟩
  · rw [generateStereoPair, stereoFold_left_eq, declLeft]
    by_cases hy : y < height
    · simp only [hy, if_true]
      cases hlw : lastWriter
          (fun x => decide (intFloorMul (depth y x) (maxShiftOf width) ≤ x
            ∧ x - intFloorMul (depth y x) (maxShiftOf width) = c))
          (List.range width) with
      | some x =>
          have hp := lastWriter_pred _ _ _ hlw
          have hp' : intFloorMul (depth y x) (maxShiftOf width) ≤ x
              ∧ x - intFloorMul (depth y x) (maxShiftOf width) = c :=
            of_decide_eq_true hp
          refine ⟨x, rfl, ?_, ?_⟩
          · omega
          · have := hbound y x
            omega
      | none => exact ⟨c, rfl, le_refl c, by omega⟩
    · simp only [hy, if_false]
      exact ⟨c, rfl, le_refl c, by omega⟩

/-- C7, witness: the bound applied on a concrete frame, depth map and
point. -/
theorem C7_disparity_bound_witness :
    (∀ y x : ℕ, 0 ≤ (fun _ _ => (1 : ℚ)) y x ∧ (fun _ _ => (1 : ℚ)) y x ≤ 1)
    ∧ ((∃ x, (generateStereoPair (fun _ x => x) (fun _ _ => (1 : ℚ)) 1 12).2 0 1
          = (fun _ x => x : ℕ → ℕ → ℕ) 0 x
        ∧ x ≤ 1 ∧ 1 - x ≤ Int.toNat (round ((12 : ℚ) * (5 / 100))))
      ∧ (∃ x, (generateStereoPair (fun _ x => x) (fun _ _ => (1 : ℚ)) 1 12).1 0 1
          = (fun _ x => x : ℕ → ℕ → ℕ) 0 x
        ∧ 1 ≤ x ∧ x - 1 ≤ Int.toNat (round ((12 : ℚ) * (5 / 100))))) :=
  have hd : ∀ y x : ℕ, 0 ≤ (fun _ _ => (1 : ℚ)) y x ∧ (fun _ _ => (1 : ℚ)) y x ≤ 1 :=
    fun _ _ => ⟨zero_le_one, le_refl 1⟩
  ⟨hd, C7_disparity_bound (fun _ x => x) (fun _ _ => (1 : ℚ)) 1 12 hd 0 1⟩

/-- C6: on a complete successful run over `n ≥ 1` frames the reported
percentages form a non-decreasing sequence ending at `100`, with the
extraction values in `[0, 20]`, the frame-processing values in `[20, 80]`
and the encoding value in `[80, 100]`. -/
theorem C6_progress_monotone (n : ℕ) (hn : 1 ≤ n) :
    List.Pairwise (· ≤ ·) (pipelineProgress n)
    ∧ (pipelineProgress n).getLast? = some 100
    ∧ (∀ p ∈ extractProgress n, 0 ≤ p ∧ p ≤ 20)
    ∧ (∀ p ∈ processProgress n, 20 ≤ p ∧ p ≤ 80)
    ∧ (∀ p ∈ encodeProgress, 80 ≤ p ∧ p ≤ 100) := by
  have hn0 : (0 : ℚ) < (n : ℚ) := by exact_mod_cast hn
  have hext : ∀ p ∈ extractProgress n, 0 ≤ p ∧ p ≤ 20 := by
    intro p hp
    simp only [extractProgress, List.mem_map, List.mem_range] at hp
    obtain ⟨i, hi, rfl⟩ := hp
    constructor
    · positivity
    · have h1 : ((i + 1 : ℕ) : ℚ) ≤ (n : ℚ) := by exact_mod_cast hi
      have h2 : ((i + 1 : ℕ) : ℚ) / (n : ℚ) ≤ 1 := by
        rw [div_le_one hn0]
        exact h1
      calc (((i + 1 : ℕ) : ℚ) / (n : ℚ)) * 20 ≤ 1 * 20 :=
            mul_le_mul_of_nonneg_right h2 (by norm_num)
        _ = 20 := one_mul 20
  have hproc : ∀ p ∈ processProgress n, 20 ≤ p ∧ p ≤ 80 := by
    intro p hp
    rw [processProgress] at hp
    obtain ⟨i, hi, rfl⟩ := List.mem_map.mp hp
    rw [List.mem_range] at hi
    have hnn : (0 : ℚ) ≤ (i : ℚ) / (n : ℚ) * 60 := by positivity
    constructor
    · linarith
    · have h1 : (i : ℚ) ≤ (n : ℚ) := by exact_mod_cast le_of_lt hi
      have h2 : (i : ℚ) / (n : ℚ) ≤ 1 := by
        rw [div_le_one hn0]
        exact h1
      have h3 : (i : ℚ) / (n : ℚ) * 60 ≤ 60 := by
        calc (i : ℚ) / (n : ℚ) * 60 ≤ 1 * 60 :=
              mul_le_mul_of_nonneg_right h2 (by norm_num)
          _ = 60 := one_mul 60
      linarith
  have henc : ∀ p ∈ encodeProgress, 80 ≤ p ∧ p ≤ 100 := by
    intro p hp
    rw [encodeProgress, List.mem_singleton] at hp
    subst hp
    norm_num
  refine ⟨?_, ?_, hext, hproc, henc⟩
  · rw [pipelineProgress]
    refine List.pairwise_append.mpr ⟨List.pairwise_append.mpr ⟨?_, ?_, ?_⟩, ?_, ?_⟩
    · rw [extractProgress, List.pairwise_map]
      refine (List.pairwise_lt_range n).imp ?_
      intro a b hab
      have hc : ((a + 1 : ℕ) : ℚ) ≤ ((b + 1 : ℕ) : ℚ) := by
        exact_mod_cast Nat.succ_le_succ (le_of_lt hab)
      exact mul_le_mul_of_nonneg_right ((div_le_div_iff_of_pos_right hn0).mpr hc) (by norm_num)
    · rw [processProgress, List.pairwise_map]
      refine (List.pairwise_lt_range n).imp ?_
      intro a b hab
      have hc : ((a : ℕ) : ℚ) ≤ ((b : ℕ) : ℚ) := by
        exact_mod_cast le_of_lt hab
      have := mul_le_mul_of_nonneg_right ((div_le_div_iff_of_pos_right hn0).mpr hc)
        (by norm_num : (0 : ℚ) ≤ 60)
      linarith
    · intro a ha b hb
      exact le_trans (hext a ha).2 (hproc b hb).1
    · rw [encodeProgress]
      simp
    · intro a ha b hb
      have h2 := (henc b hb).1
      rcases List.mem_append.mp ha with ha | ha
      · have h1 := (hext a ha).2
        linarith
      · have h1 := (hproc a ha).2
        linarith
  · have hsplit : pipelineProgress n
        = (extractProgress n ++ processProgress n) ++ [100] := by
      rw [pipelineProgress, encodeProgress]
    rw [hsplit, List.getLast?_concat]

/-- C6, witness: a three-frame run. -/
theorem C6_progress_monotone_witness :
    1 ≤ 3
    ∧ (List.Pairwise (· ≤ ·) (pipelineProgress 3)
      ∧ (pipelineProgress 3).getLast? = some 100
      ∧ (∀ p ∈ extractProgress 3, 0 ≤ p ∧ p ≤ 20)
      ∧ (∀ p ∈ processProgress 3, 20 ≤ p ∧ p ≤ 80)
      ∧ (∀ p ∈ encodeProgress, 80 ≤ p ∧ p ≤ 100)) :=
  ⟨by decide, C6_progress_monotone 3 (by decide)⟩

/-! ### Digit and lexicographic-order lemmas for the frame-naming claim -/

/-- Value of a digit list, least significant digit first. -/
def lsdVal : List ℕ → ℕ
  | [] => 0
  | d :: ds => d + 10 * lsdVal ds

/-- Value of a digit list, most significant digit first. -/
def msdVal : List ℕ → ℕ
  | [] => 0
  | d :: ds => d * 10 ^ ds.length + msdVal ds

theorem digitsAux_val : ∀ fuel n, n ≤ fuel → lsdVal (digitsAux fuel n) = n := by
  intro fuel
  induction fuel with
  | zero =>
      intro n hn
      interval_cases n
      rfl
  | succ fuel ih =>
      intro n hn
      by_cases h0 : n = 0
      · subst h0
        simp [digitsAux, lsdVal]
      · rw [digitsAux]
        simp only [h0, if_false]
        rw [lsdVal, ih (n / 10) (by omega)]
        omega

theorem digitsAux_lt_ten : ∀ fuel n, ∀ d ∈ digitsAux fuel n, d < 10 := by
  intro fuel
  induction fuel with
  | zero => intro n d hd; cases hd
  | succ fuel ih =>
      intro n d hd
      rw [digitsAux] at hd
      by_cases h0 : n = 0
      · simp [h0] at hd
      · simp only [h0, if_false, List.mem_cons] at hd
        rcases hd with hd | hd
        · subst hd
          omega
        · exact ih _ _ hd

theorem digitsAux_length : ∀ fuel n k, n < 10 ^ k → (digitsAux fuel n).length ≤ k := by
  intro fuel
  induction fuel with
  | zero => intro n k _; simp [digitsAux]
  | succ fuel ih =>
      intro n k hk
      by_cases h0 : n = 0
      · simp [digitsAux, h0]
      · rw [digitsAux]
        simp only [h0, if_false, List.length_cons]
        cases k with
        | zero =>
            exfalso
            simp at hk
            omega
        | succ k =>
            have hdiv : n / 10 < 10 ^ k := by
              rw [Nat.div_lt_iff_lt_mul (by norm_num)]
              calc n < 10 ^ (k + 1) := hk
                _ = 10 ^ k * 10 := by ring
            exact Nat.succ_le_succ (ih (n / 10) k hdiv)

theorem msdVal_append_single (l : List ℕ) (d : ℕ) :
    msdVal (l ++ [d]) = 10 * msdVal l + d := by
  induction l with
  | nil => simp [msdVal]
  | cons c cs ih =>
      simp only [List.cons_append, List.append_eq, msdVal, ih, List.length_append,
        List.length_cons, List.length_nil]
      ring

theorem msdVal_reverse (l : List ℕ) : msdVal l.reverse = lsdVal l := by
  induction l with
  | nil => rfl
  | cons d ds ih =>
      rw [List.reverse_cons, msdVal_append_single, ih, lsdVal]
      ring

theorem msdVal_replicate_zero_append (k : ℕ) (l : List ℕ) :
    msdVal (List.replicate k 0 ++ l) = msdVal l := by
  induction k with
  | zero => rfl
  | succ k ih =>
      rw [List.replicate_succ, List.cons_append, msdVal, ih]
      ring

theorem msdVal_lt (l : List ℕ) (hl : ∀ d ∈ l, d < 10) :
    msdVal l < 10 ^ l.length := by
  induction l with
  | nil => simp [msdVal]
  | cons d ds ih =>
      have hd : d < 10 := hl d (List.mem_cons_self d ds)
      have hds := ih (fun x hx => hl x (List.mem_cons_of_mem d hx))
      rw [msdVal, List.length_cons]
      calc d * 10 ^ ds.length + msdVal ds
          < d * 10 ^ ds.length + 10 ^ ds.length := Nat.add_lt_add_left hds _
        _ = (d + 1) * 10 ^ ds.length := by ring
        _ ≤ 10 * 10 ^ ds.length := Nat.mul_le_mul_right _ (by omega)
        _ = 10 ^ (ds.length + 1) := by ring

theorem lexLt_append_left (p a b : List ℕ) :
    lexLt (p ++ a) (p ++ b) = lexLt a b := by
  induction p with
  | nil => rfl
  | cons c p ih =>
      simp only [List.cons_append, List.append_eq, lexLt, lt_irrefl, if_false, ih]

theorem lexLt_of_msdVal_lt (a : List ℕ) :
    ∀ (b s t : List ℕ), (∀ d ∈ b, d < 10) → a.length = b.length →
      msdVal a < msdVal b →
      lexLt (a.map (fun d => 48 + d) ++ s) (b.map (fun d => 48 + d) ++ t) = true := by
  induction a with
  | nil =>
      intro b s t _ hlen hv
      cases b with
      | nil => simp [msdVal] at hv
      | cons e es => simp at hlen
  | cons d ds ih =>
      intro b s t hb hlen hv
      cases b with
      | nil => simp at hlen
      | cons e es =>
          have hlen' : ds.length = es.length := by
            simpa using hlen
          rcases Nat.lt_trichotomy d e with hde | hde | hde
          · simp [lexLt, hde]
          · subst hde
            have hv' : msdVal ds < msdVal es := by
              rw [msdVal, msdVal, hlen'] at hv
              exact Nat.lt_of_add_lt_add_left hv
            have hb' : ∀ x ∈ es, x < 10 := fun x hx => hb x (List.mem_cons_of_mem _ hx)
            simp only [List.map_cons, List.cons_append, lexLt, lt_irrefl, if_false]
            exact ih es s t hb' hlen' hv'
          · exfalso
            have hes : msdVal es < 10 ^ es.length :=
              msdVal_lt es (fun x hx => hb x (List.mem_cons_of_mem e hx))
            rw [msdVal, msdVal, hlen'] at hv
            have hcontra : e * 10 ^ es.length + msdVal es
                < d * 10 ^ es.length + msdVal ds := by
              calc e * 10 ^ es.length + msdVal es
                  < e * 10 ^ es.length + 10 ^ es.length := Nat.add_lt_add_left hes _
                _ = (e + 1) * 10 ^ es.length := by ring
                _ ≤ d * 10 ^ es.length := Nat.mul_le_mul_right _ (by omega)
                _ ≤ d * 10 ^ es.length + msdVal ds := Nat.le_add_right _ _
            exact Nat.lt_asymm hcontra hv

/-- Digit list (most significant first) of the `%06d` rendering of `i`. -/
def padDigits (i : ℕ) : List ℕ :=
  List.replicate (6 - (decDigits i).length) 0 ++ (decDigits i).reverse

theorem zfill_decCodes (i : ℕ) :
    zfill 6 (decCodes i) = (padDigits i).map (fun d => 48 + d) := by
  rw [zfill, padDigits, decCodes, List.map_append, List.map_replicate]
  simp

theorem padDigits_lt_ten (i : ℕ) : ∀ d ∈ padDigits i, d < 10 := by
  intro d hd
  rw [padDigits] at hd
  rcases List.mem_append.mp hd with hd | hd
  · rw [List.eq_of_mem_replicate hd]
    omega
  · rw [List.mem_reverse, decDigits] at hd
    by_cases h0 : i = 0
    · simp [h0] at hd
      omega
    · simp only [h0, if_false] at hd
      exact digitsAux_lt_ten i i d hd

theorem decDigits_length_le (i : ℕ) (hi : i < 10 ^ 6) : (decDigits i).length ≤ 6 := by
  rw [decDigits]
  by_cases h0 : i = 0
  · simp [h0]
  · simp only [h0, if_false]
    exact digitsAux_length i i 6 hi

theorem padDigits_length (i : ℕ) (hi : i < 10 ^ 6) : (padDigits i).length = 6 := by
  rw [padDigits, List.length_append, List.length_replicate, List.length_reverse]
  have := decDigits_length_le i hi
  omega

theorem msdVal_padDigits (i : ℕ) : msdVal (padDigits i) = i := by
  rw [padDigits, msdVal_replicate_zero_append, msdVal_reverse, decDigits]
  by_cases h0 : i = 0
  · simp [h0, lsdVal]
  · simp only [h0, if_false]
    exact digitsAux_val i i (le_refl i)

theorem frameName_lt (i j : ℕ) (hij : i < j) (hj : j < 10 ^ 6) :
    lexLt (frameName i) (frameName j) = true := by
  have hi : i < 10 ^ 6 := lt_trans hij hj
  rw [frameName, frameName, List.append_assoc, List.append_assoc, lexLt_append_left,
    zfill_decCodes, zfill_decCodes]
  refine lexLt_of_msdVal_lt (padDigits i) (padDigits j) _ _ (padDigits_lt_ten j) ?_ ?_
  · rw [padDigits_length i hi, padDigits_length j hj]
  · rw [msdVal_padDigits, msdVal_padDigits]
    exact hij

theorem frameName_length (i : ℕ) (hi : i < 10 ^ 6) : (frameName i).length = 16 := by
  have hlen := decDigits_length_le i hi
  rw [frameName]
  simp only [List.length_append, zfill, List.length_replicate, decCodes,
    List.length_map, List.length_reverse, List.length_cons, List.length_nil]
  omega

/-- C9, counterexample: with 1 000 001 extracted frames the fixed `%06d`
padding overflows: the name of frame 1000000 is 17 characters long (the
names are no longer fixed-width) and sorts lexicographically *before* the
name of frame 999999, so lexical and numeric ordering of the filenames no
longer coincide and the lexically sorted listing consumed by the processing
stage is out of index order. -/
theorem C9_counterexample :
    lexLt (frameName 1000000) (frameName 999999) = true
    ∧ 999999 < 1000000
    ∧ (frameName 999999).length = 16
    ∧ (frameName 1000000).length = 17 := by decide

/-- C9, amended: for runs of at most 10^6 frames — the regime the fixed
`%06d` width supports — every frame filename has the fixed length 16 and
lexical order of the names coincides with numeric index order, so the
lexically sorted listing consumed by the frame-processing stage and the
`frame_%06d.jpg` pattern enumerated in index order by the encoder both
preserve frame order end to end. -/
theorem C9_frame_order_amended (n : ℕ) (hn : n ≤ 10 ^ 6) :
    (∀ i ∈ List.range n, (frameName i).length = 16)
    ∧ List.Pairwise (fun a b => lexLt a b = true) ((List.range n).map frameName) := by
  constructor
  · intro i hi
    exact frameName_length i (lt_of_lt_of_le (List.mem_range.mp hi) hn)
  · rw [List.pairwise_map]
    exact List.Pairwise.imp_of_mem
      (fun ha hb hab => frameName_lt _ _ hab (lt_of_lt_of_le (List.mem_range.mp hb) hn))
      (List.pairwise_lt_range n)

/-- C9, witness for the amended theorem: a three-frame run. -/
theorem C9_frame_order_amended_witness :
    3 ≤ 10 ^ 6
    ∧ ((∀ i ∈ List.range 3, (frameName i).length = 16)
      ∧ List.Pairwise (fun a b => lexLt a b = true) ((List.range 3).map frameName)) :=
  ⟨by decide, C9_frame_order_amended 3 (by decide)⟩

end VR180
